import Mathlib

/-!
Verification of the fan/pump speed-profile core of liquidctl
(src/liquidctl/util.py): the numeric helper fraction_of_byte, the
Normalizer normalize_profile and the Interpolator interpolate_profile.

Machine integers in the Python source are arbitrary-precision, so they are
embedded as ℤ; Python float arithmetic inside fraction_of_byte and
interpolate_profile is idealised as exact rational arithmetic (ℚ), with
round() modelled as round-half-to-even, which is the behaviour of the
Python built-in on exact values.  Fallible code (raised exceptions)
returns Except / Option.
-/

namespace Liquidctl

/-- Round-half-to-even on rationals, the behaviour of the Python built-in
round() used by fraction_of_byte and interpolate_profile. -/
def pyRound (q : ℚ) : ℤ :=
  let f : ℤ := ⌊q⌋
  let r : ℚ := q - f
  if r < 1/2 then f
  else if 1/2 < r then f + 1
  else if Even f then f else f + 1

/-- Embedding of util.py fraction_of_byte: when percentage is given it
overwrites ratio with percentage / 100; a present ratio outside [0, 1]
raises ValueError, an absent ratio raises ValueError, otherwise the result
is round(ratio * 255). -/
def fraction_of_byte (ratio : Option ℚ) (percentage : Option ℚ) : Except String ℤ :=
  let ratio : Option ℚ :=
    match percentage with
    | some p => some (p / 100)
    | none => ratio
  match ratio with
  | some r =>
      if r < 0 ∨ 1 < r then Except.error "Cannot express ratios outside of [0, 1]"
      else Except.ok (pyRound (r * 255))
  | none => Except.error "Either ratio or percentage must not be None"

/-- The effective ratio the code ends up checking: percentage / 100 when a
percentage is supplied (silently overriding ratio), else the ratio. -/
def effectiveRatio (ratio : Option ℚ) (percentage : Option ℚ) : Option ℚ :=
  match percentage with
  | some p => some (p / 100)
  | none => ratio

/-- The tail of fraction_of_byte, applied to the effective ratio: the
range check followed by the rounding, or the error for an absent
ratio. -/
def checkRatio (s : Option ℚ) : Except String ℤ :=
  match s with
  | some r =>
      if r < 0 ∨ 1 < r then Except.error "Cannot express ratios outside of [0, 1]"
      else Except.ok (pyRound (r * 255))
  | none => Except.error "Either ratio or percentage must not be None"

/-- The comparison performed by the Python sort key lambda p: (p[0], -p[1]):
lexicographic on (x, -y), i.e. x ascending with ties broken by y
descending. -/
def pointLe (p q : ℤ × ℤ) : Bool :=
  decide (p.1 < q.1 ∨ (p.1 = q.1 ∧ q.2 ≤ p.2))

/-- Insert a point into a list that is already sorted by pointLe, before
the first element it compares at most equal to. -/
def insertPoint (p : ℤ × ℤ) : List (ℤ × ℤ) → List (ℤ × ℤ)
  | [] => [p]
  | q :: rest => if pointLe p q then p :: q :: rest else q :: insertPoint p rest

/-- Model of the Python built-in sorted with key lambda p: (p[0], -p[1]).
Python uses a stable sort, but the key (x, -y) determines the point, so
two points comparing equal under pointLe are equal and every sort
agreeing with this total order returns the same list; stable insertion
sort is such a sort. -/
def sortPoints : List (ℤ × ℤ) → List (ℤ × ℤ)
  | [] => []
  | p :: rest => insertPoint p (sortPoints rest)

/-- The loop of normalize_profile.  The first argument is the rest of the
sorted working list, the second is the previous element of the sorted
list (xb, yb) - note: the predecessor in the sorted list, not the last
kept point.  A point with the same x as its sorted predecessor is
skipped; a y below the sorted predecessor y is raised to it; after
appending a point whose (possibly raised) y is 100 the loop breaks. -/
def walk : List (ℤ × ℤ) → ℤ × ℤ → List (ℤ × ℤ)
  | [], _ => []
  | (x, y) :: rest, prev =>
      if x = prev.1 then walk rest (x, y)
      else
        let y2 := if y < prev.2 then prev.2 else y
        if y2 = 100 then [(x, y2)] else (x, y2) :: walk rest (x, y)

/-- Embedding of util.py normalize_profile: append the fail-safe point
(critx, 100), sort by (x, -y), keep the first point unconditionally and
run the walk over the remaining points. -/
def normalize_profile (profile : List (ℤ × ℤ)) (critx : ℤ) : List (ℤ × ℤ) :=
  match sortPoints (profile ++ [(critx, 100)]) with
  | [] => []
  | p :: rest => p :: walk rest p

/-- The scan loop of interpolate_profile: lower is updated to every step
with step x at most the query x; the first step with step x at least the
query x becomes upper and breaks the loop. -/
def iscan (x : ℤ) : List (ℤ × ℤ) → ℤ × ℤ → ℤ × ℤ → (ℤ × ℤ) × (ℤ × ℤ)
  | [], lower, upper => (lower, upper)
  | s :: rest, lower, upper =>
      let lower2 := if s.1 ≤ x then s else lower
      if x ≤ s.1 then (lower2, s) else iscan x rest lower2 upper

/-- Embedding of util.py interpolate_profile: on an empty profile the
subscript profile[0] raises IndexError (modelled as none); otherwise
lower and upper start at the first and last points, the scan runs, and
the result is lower y when the bracket is degenerate, else the linear
interpolant rounded half-to-even. -/
def interpolate_profile (profile : List (ℤ × ℤ)) (x : ℤ) : Option ℤ :=
  match profile with
  | [] => none
  | h :: t =>
      let lu := iscan x (h :: t) h ((h :: t).getLast (List.cons_ne_nil h t))
      some (if lu.1.1 = lu.2.1 then lu.1.2
            else pyRound ((lu.1.2 : ℚ) +
              ((x : ℚ) - (lu.1.1 : ℚ)) / ((lu.2.1 : ℚ) - (lu.1.1 : ℚ)) *
                ((lu.2.2 : ℚ) - (lu.1.2 : ℚ))))

/-! ## Fidelity of the embedding: the doctests of util.py -/

theorem doctest_normalize_1 :
    normalize_profile [(30, 40), (25, 25), (35, 30), (40, 35), (40, 80)] 60
      = [(25, 25), (30, 40), (35, 40), (40, 80), (60, 100)] := by decide

theorem doctest_normalize_2 :
    normalize_profile [(30, 40), (25, 25), (35, 30), (40, 100)] 60
      = [(25, 25), (30, 40), (35, 40), (40, 100)] := by decide

theorem doctest_normalize_3 :
    normalize_profile [(30, 40), (25, 25), (35, 100), (40, 100)] 60
      = [(25, 25), (30, 40), (35, 100)] := by decide

theorem doctest_normalize_4 : normalize_profile [] 60 = [(60, 100)] := by decide

theorem doctest_interpolate_1 :
    interpolate_profile [(20, 50), (50, 70), (60, 100)] 33 = some 59 := by
  norm_num [interpolate_profile, iscan, pyRound, List.getLast]

theorem doctest_interpolate_2 :
    interpolate_profile [(20, 50), (50, 70)] 19 = some 50 := by
  norm_num [interpolate_profile, iscan, pyRound, List.getLast]

theorem doctest_interpolate_3 :
    interpolate_profile [(20, 50), (50, 70)] 51 = some 70 := by
  norm_num [interpolate_profile, iscan, pyRound, List.getLast]

theorem doctest_interpolate_4 :
    interpolate_profile [(20, 50)] 20 = some 50 := by
  norm_num [interpolate_profile, iscan, pyRound, List.getLast]

theorem doctest_fraction_1 : fraction_of_byte (some (4/5)) none = Except.ok 204 := by
  norm_num [fraction_of_byte, pyRound]

theorem doctest_fraction_2 : fraction_of_byte none (some 20) = Except.ok 51 := by
  norm_num [fraction_of_byte, pyRound]

/-! ## Helper lemmas -/

theorem pyRound_bounds (a b : ℤ) (q : ℚ) (ha : (a : ℚ) ≤ q) (hb : q ≤ (b : ℚ)) :
    a ≤ pyRound q ∧ pyRound q ≤ b := by
  have hfa : a ≤ ⌊q⌋ := Int.le_floor.mpr ha
  have hfb : ⌊q⌋ ≤ b := by
    have h := Int.floor_le_floor hb
    simpa using h
  have hstep : (1 : ℚ)/2 ≤ q - (⌊q⌋ : ℚ) → ⌊q⌋ + 1 ≤ b := by
    intro hr
    have h2 : (⌊q⌋ : ℚ) < (b : ℚ) := by linarith
    have h3 : ⌊q⌋ < b := by exact_mod_cast h2
    omega
  simp only [pyRound]
  split_ifs with h1 h2 h3
  · exact ⟨hfa, hfb⟩
  · exact ⟨by omega, hstep (le_of_lt h2)⟩
  · exact ⟨hfa, hfb⟩
  · exact ⟨by omega, hstep (le_of_not_lt h1)⟩

theorem insertPoint_length (p : ℤ × ℤ) (l : List (ℤ × ℤ)) :
    (insertPoint p l).length = l.length + 1 := by
  induction l with
  | nil => rfl
  | cons q rest ih =>
    simp only [insertPoint]
    split_ifs
    · simp
    · simp [ih]

theorem sortPoints_length (l : List (ℤ × ℤ)) : (sortPoints l).length = l.length := by
  induction l with
  | nil => rfl
  | cons p rest ih => simp [sortPoints, insertPoint_length, ih]

theorem walk_length_le (l : List (ℤ × ℤ)) : ∀ prev, (walk l prev).length ≤ l.length := by
  induction l with
  | nil => intro prev; simp [walk]
  | cons s rest ih =>
    intro prev
    obtain ⟨x, y⟩ := s
    simp only [walk]
    split_ifs
    all_goals simp only [List.length_cons, List.length_singleton, List.length_nil]
    all_goals have := ih (x, y)
    all_goals omega

theorem walk_y100_last (l : List (ℤ × ℤ)) :
    ∀ (prev : ℤ × ℤ) (j : ℕ), j < (walk l prev).length →
      ((walk l prev).getD j (0, 0)).2 = 100 → j + 1 = (walk l prev).length := by
  induction l with
  | nil => intro prev j hj; simp [walk] at hj
  | cons s rest ih =>
    intro prev j hj h100
    obtain ⟨x, y⟩ := s
    simp only [walk] at hj h100 ⊢
    split_ifs at hj h100 ⊢ with hx hlt hA hB
    · exact ih (x, y) j hj h100
    · simp only [List.length_singleton] at hj ⊢
      omega
    · match j with
      | 0 =>
        simp only [List.getD_cons_zero] at h100
        exact absurd h100 hA
      | j + 1 =>
        simp only [List.getD_cons_succ] at h100
        simp only [List.length_cons] at hj ⊢
        have := ih (x, y) j (by omega) h100
        omega
    · simp only [List.length_singleton] at hj ⊢
      omega
    · match j with
      | 0 =>
        simp only [List.getD_cons_zero] at h100
        exact absurd h100 hB
      | j + 1 =>
        simp only [List.getD_cons_succ] at h100
        simp only [List.length_cons] at hj ⊢
        have := ih (x, y) j (by omega) h100
        omega
theorem iscan_cons_of_le {x : ℤ} {s : ℤ × ℤ} (h : x ≤ s.1) (rest : List (ℤ × ℤ))
    (lw up : ℤ × ℤ) :
    iscan x (s :: rest) lw up = (if s.1 ≤ x then s else lw, s) := by
  simp only [iscan, if_pos h]

theorem iscan_cons_of_lt {x : ℤ} {s : ℤ × ℤ} (h : s.1 < x) (rest : List (ℤ × ℤ))
    (lw up : ℤ × ℤ) :
    iscan x (s :: rest) lw up = iscan x rest s up := by
  simp only [iscan, if_pos (le_of_lt h), if_neg (not_le.mpr h)]

theorem iscan_append {x : ℤ} (pre : List (ℤ × ℤ)) :
    ∀ (rest : List (ℤ × ℤ)) (lw up : ℤ × ℤ), (∀ s ∈ pre, s.1 < x) →
      iscan x (pre ++ rest) lw up = iscan x rest (pre.getLastD lw) up := by
  induction pre with
  | nil => intro rest lw up _; rfl
  | cons s pre2 ih =>
    intro rest lw up h
    have hs : s.1 < x := h s (List.mem_cons_self s pre2)
    rw [List.cons_append, iscan_cons_of_lt hs,
      ih rest s up (fun q hq => h q (List.mem_cons_of_mem s hq)), List.getLastD_cons]

theorem iscan_all_lt {x : ℤ} (l : List (ℤ × ℤ)) (lw up : ℤ × ℤ) (h : ∀ s ∈ l, s.1 < x) :
    iscan x l lw up = (l.getLastD lw, up) :=
  calc iscan x l lw up = iscan x (l ++ []) lw up := by rw [List.append_nil]
    _ = iscan x [] (l.getLastD lw) up := iscan_append l [] lw up h
    _ = (l.getLastD lw, up) := rfl

theorem iscan_mem {x : ℤ} (l : List (ℤ × ℤ)) :
    ∀ lw up : ℤ × ℤ,
      (iscan x l lw up).1 ∈ lw :: up :: l ∧ (iscan x l lw up).2 ∈ lw :: up :: l := by
  induction l with
  | nil => intro lw up; simp [iscan]
  | cons s rest ih =>
    intro lw up
    by_cases hxs : x ≤ s.1
    · rw [iscan_cons_of_le hxs]
      by_cases hsx : s.1 ≤ x
      · simp [if_pos hsx]
      · simp [if_neg hsx]
    · have hlt : s.1 < x := lt_of_not_ge hxs
      rw [iscan_cons_of_lt hlt]
      have h := ih s up
      constructor
      · have h1 := h.1
        simp only [List.mem_cons] at h1 ⊢
        tauto
      · have h2 := h.2
        simp only [List.mem_cons] at h2 ⊢
        tauto

theorem iscan_result {x : ℤ} (l : List (ℤ × ℤ)) :
    ∀ lw up : ℤ × ℤ, lw.1 ≤ x →
      ((iscan x l lw up).1).1 ≤ x ∧
        (x ≤ ((iscan x l lw up).2).1 ∨
          ((iscan x l lw up).2 = up ∧ (iscan x l lw up).1 = l.getLastD lw)) := by
  induction l with
  | nil => intro lw up hlw; exact ⟨hlw, Or.inr ⟨rfl, rfl⟩⟩
  | cons s rest ih =>
    intro lw up hlw
    by_cases hxs : x ≤ s.1
    · rw [iscan_cons_of_le hxs]
      refine ⟨?_, Or.inl hxs⟩
      dsimp only
      split_ifs with h
      · exact h
      · exact hlw
    · have hlt : s.1 < x := lt_of_not_ge hxs
      rw [iscan_cons_of_lt hlt]
      have h := ih s up (le_of_lt hlt)
      refine ⟨h.1, ?_⟩
      rcases h.2 with h2 | ⟨h2, h3⟩
      · exact Or.inl h2
      · exact Or.inr ⟨h2, by rw [h3, List.getLastD_cons]⟩

theorem fst_le_getLast {l : List (ℤ × ℤ)} (hl : l ≠ [])
    (hs : l.Pairwise (fun p q : ℤ × ℤ => p.1 < q.1)) :
    ∀ s ∈ l, s.1 ≤ (l.getLast hl).1 := by
  induction l with
  | nil => exact absurd rfl hl
  | cons a t ih =>
    intro s hsm
    cases t with
    | nil =>
      simp only [List.mem_singleton] at hsm
      subst hsm
      exact le_refl _
    | cons b t2 =>
      rw [List.getLast_cons (List.cons_ne_nil b t2)]
      rcases List.mem_cons.mp hsm with rfl | hsm2
      · have hb := List.getLast_mem (l := b :: t2) (List.cons_ne_nil b t2)
        exact le_of_lt ((List.pairwise_cons.mp hs).1 _ hb)
      · exact ih (List.cons_ne_nil b t2) (List.pairwise_cons.mp hs).2 s hsm2

theorem interpolate_mem_eq {curve : List (ℤ × ℤ)}
    (hs : curve.Pairwise (fun p q : ℤ × ℤ => p.1 < q.1))
    {p : ℤ × ℤ} (hp : p ∈ curve) :
    interpolate_profile curve p.1 = some p.2 := by
  cases curve with
  | nil => cases hp
  | cons h t =>
    obtain ⟨pre, post, heq⟩ := List.append_of_mem hp
    have hpre : ∀ s ∈ pre, s.1 < p.1 := by
      rw [heq, List.pairwise_append] at hs
      exact fun s hsm => hs.2.2 s hsm p (List.mem_cons_self p post)
    simp only [interpolate_profile]
    generalize (h :: t).getLast (List.cons_ne_nil h t) = G
    rw [heq, iscan_append pre (p :: post) h G hpre, iscan_cons_of_le (le_refl p.1)]
    simp

/-! ## Claims about the Normalizer -/

/-- C10: for every profile P and integer critx, the curve returned by
normalize_profile contains at least 1 and at most P.length + 1 points; in
particular it is never empty, so it satisfies the non-emptiness
precondition of interpolate_profile. -/
theorem c10_normalize_length (P : List (ℤ × ℤ)) (critx : ℤ) :
    1 ≤ (normalize_profile P critx).length ∧
      (normalize_profile P critx).length ≤ P.length + 1 ∧
      normalize_profile P critx ≠ [] := by
  unfold normalize_profile
  cases hs : sortPoints (P ++ [(critx, 100)]) with
  | nil =>
    exfalso
    have h := sortPoints_length (P ++ [(critx, 100)])
    rw [hs] at h
    simp at h
  | cons p rest =>
    have h := sortPoints_length (P ++ [(critx, 100)])
    rw [hs] at h
    simp at h
    have hw := walk_length_le rest p
    refine ⟨by simp, ?_, by simp⟩
    simp only [List.length_cons]
    omega

/-- C1 counterexample: for P = [(10, 100)] and critx = 20 the first
retained point (10, 100) already has y = 100, yet the synthesized
fail-safe point (20, 100) is retained after it, so the claim that nothing
follows the first retained point with y = 100 is false. -/
theorem c1_truncation_ce :
    normalize_profile [(10, 100)] 20 = [(10, 100), (20, 100)] := by decide

/-- C1 (amended): in normalize_profile P critx no point appears after the
first point beyond the head whose y equals 100: any point at position
j + 1 with y = 100 is the last point of the curve.  The head is kept
unconditionally without the stop check, so when the minimum-x point of
the working set already has y = 100 further points may still follow
it. -/
theorem c1_truncation_amended (P : List (ℤ × ℤ)) (critx : ℤ) (j : ℕ)
    (hj : j + 1 < (normalize_profile P critx).length)
    (h100 : ((normalize_profile P critx).getD (j + 1) (0, 0)).2 = 100) :
    j + 2 = (normalize_profile P critx).length := by
  unfold normalize_profile at hj h100 ⊢
  cases hs : sortPoints (P ++ [(critx, 100)]) with
  | nil => rw [hs] at hj; simp at hj
  | cons p rest =>
    rw [hs] at hj h100
    simp only [List.length_cons, List.getD_cons_succ] at hj h100 ⊢
    have := walk_y100_last rest p j (by omega) h100
    omega

/-- C1 amended witness: on the third doctest profile the point (35, 100)
sits at position 2 and is indeed the last of the three points. -/
theorem c1_truncation_amended_witness :
    1 + 2 = (normalize_profile [(30, 40), (25, 25), (35, 100), (40, 100)] 60).length :=
  c1_truncation_amended [(30, 40), (25, 25), (35, 100), (40, 100)] 60 1
    (by decide) (by decide)

/-- C3: normalize_profile is not idempotent.  For
P = [(10, 80), (10, 20), (20, 30)] and critx = 40 the first pass returns
[(10, 80), (20, 30), (40, 100)] (the y of (20, 30) is only compared with
its sorted predecessor (10, 20), not with the kept point (10, 80)), and
the second pass raises it to (20, 80), so the two results differ. -/
theorem c3_idempotence_fails :
    normalize_profile [(10, 80), (10, 20), (20, 30)] 40
      = [(10, 80), (20, 30), (40, 100)] ∧
    normalize_profile (normalize_profile [(10, 80), (10, 20), (20, 30)] 40) 40
      = [(10, 80), (20, 80), (40, 100)] ∧
    normalize_profile (normalize_profile [(10, 80), (10, 20), (20, 30)] 40) 40
      ≠ normalize_profile [(10, 80), (10, 20), (20, 30)] 40 := by decide

/-- C4: the output of normalize_profile is not always non-decreasing in y,
contrary to the monotonicity stated in the docstring of the function: on
P = [(10, 50), (20, 10), (30, 20)], critx = 40 the loop raises (20, 10)
to (20, 50) but then compares (30, 20) only with the sorted predecessor
(20, 10), keeping it, so y drops from 50 to 20. -/
theorem c4_monotonicity_fails :
    normalize_profile [(10, 50), (20, 10), (30, 20)] 40
      = [(10, 50), (20, 50), (30, 20), (40, 100)] ∧
    ¬ List.Pairwise (fun p q : ℤ × ℤ => p.2 ≤ q.2)
        (normalize_profile [(10, 50), (20, 10), (30, 20)] 40) := by decide

/-- C5: the last point of normalize_profile need not have y = 100: on
P = [(5, 30), (10, 40)], critx = 5 the fail-safe (5, 100) becomes the
head, (5, 30) is skipped as a duplicate x, and (10, 40) is compared only
with the skipped (5, 30), so the curve ends at (10, 40) although no point
of P reaches y = 100. -/
theorem c5_failsafe_fails :
    normalize_profile [(5, 30), (10, 40)] 5 = [(5, 100), (10, 40)] ∧
    ((normalize_profile [(5, 30), (10, 40)] 5).getLastD (0, 0)).2 = 40 := by decide

/-! ## Claims about the Interpolator -/

/-- C6: on a non-empty strictly ascending curve, a query at or below the
first x returns the first y, and a query at or above the last x returns
the last y (flat extrapolation outside the domain). -/
theorem c6_boundary (curve : List (ℤ × ℤ)) (x : ℤ) (hne : curve ≠ [])
    (hs : curve.Pairwise (fun p q : ℤ × ℤ => p.1 < q.1)) :
    (x ≤ (curve.head hne).1 →
      interpolate_profile curve x = some (curve.head hne).2) ∧
    ((curve.getLast hne).1 ≤ x →
      interpolate_profile curve x = some (curve.getLast hne).2) := by
  cases curve with
  | nil => exact absurd rfl hne
  | cons h t =>
    constructor
    · intro hx
      simp only [List.head_cons] at hx ⊢
      simp only [interpolate_profile]
      rw [iscan_cons_of_le hx]
      simp
    · intro hx
      rcases eq_or_lt_of_le hx with heq | hlt
      · rw [← heq]
        exact interpolate_mem_eq hs (List.getLast_mem hne)
      · have hall : ∀ s ∈ h :: t, s.1 < x := fun s hsm =>
          lt_of_le_of_lt (fst_le_getLast hne hs s hsm) hlt
        simp only [interpolate_profile]
        rw [iscan_all_lt (h :: t) h ((h :: t).getLast (List.cons_ne_nil h t)) hall]
        have hdl : (h :: t).getLastD h = (h :: t).getLast (List.cons_ne_nil h t) := by
          rw [List.getLastD_cons, List.getLast_eq_getLastD]
        rw [hdl]
        simp

/-- C6 witness: the two flat-extrapolation doctests of the source. -/
theorem c6_boundary_witness :
    interpolate_profile [(20, 50), (50, 70)] 19 = some 50 ∧
    interpolate_profile [(20, 50), (50, 70)] 51 = some 70 := by
  constructor
  · have h := (c6_boundary [(20, 50), (50, 70)] 19 (by simp) (by decide)).1 (by decide)
    simpa using h
  · have h := (c6_boundary [(20, 50), (50, 70)] 51 (by simp) (by decide)).2 (by decide)
    simpa using h

/-- C7: on a strictly ascending curve, querying the x of any control point
returns exactly the y of that point (the degenerate bracket returns lower
y without any division). -/
theorem c7_exact_match (curve : List (ℤ × ℤ))
    (hs : curve.Pairwise (fun p q : ℤ × ℤ => p.1 < q.1))
    (p : ℤ × ℤ) (hp : p ∈ curve) :
    interpolate_profile curve p.1 = some p.2 :=
  interpolate_mem_eq hs hp

/-- C7 witness: querying the middle control point of the first doctest
curve returns its own y. -/
theorem c7_exact_match_witness :
    interpolate_profile [(20, 50), (50, 70), (60, 100)] 50 = some 70 := by
  have h := c7_exact_match [(20, 50), (50, 70), (60, 100)] (by decide) (50, 70) (by decide)
  simpa using h

/-- C8: on a non-empty, strictly ascending, y non-decreasing curve whose
duty values all lie in [0, 100], the interpolated result at any integer
query is an integer in [0, 100], with no re-clamping performed. -/
theorem c8_range (curve : List (ℤ × ℤ)) (x : ℤ) (hne : curve ≠ [])
    (hs : curve.Pairwise (fun p q : ℤ × ℤ => p.1 < q.1))
    (hy : curve.Pairwise (fun p q : ℤ × ℤ => p.2 ≤ q.2))
    (hr : ∀ p ∈ curve, 0 ≤ p.2 ∧ p.2 ≤ 100) :
    ∃ r, interpolate_profile curve x = some r ∧ 0 ≤ r ∧ r ≤ 100 := by
  cases curve with
  | nil => exact absurd rfl hne
  | cons h t =>
    simp only [interpolate_profile]
    by_cases hhx : h.1 ≤ x
    case neg =>
      have hxh : x ≤ h.1 := le_of_lt (lt_of_not_ge hhx)
      rw [iscan_cons_of_le hxh]
      simp only [if_neg hhx, if_pos rfl]
      exact ⟨h.2, rfl, (hr h (List.mem_cons_self h t)).1, (hr h (List.mem_cons_self h t)).2⟩
    case pos =>
      set G := (h :: t).getLast (List.cons_ne_nil h t) with hGdef
      have hGmem : G ∈ h :: t := by rw [hGdef]; exact List.getLast_mem _
      have hres := iscan_result (h :: t) h G hhx
      have hmem := iscan_mem (x := x) (h :: t) h G
      set L := (iscan x (h :: t) h G).1 with hLdef
      set U := (iscan x (h :: t) h G).2 with hUdef
      have hcand : ∀ z : ℤ × ℤ, z ∈ (h :: G :: (h :: t) : List (ℤ × ℤ)) → z ∈ h :: t := by
        intro z hz
        rcases List.mem_cons.mp hz with rfl | hz2
        · exact List.mem_cons_self _ _
        rcases List.mem_cons.mp hz2 with rfl | hz3
        · exact hGmem
        · exact hz3
      have hLmem := hcand _ hmem.1
      have hUmem := hcand _ hmem.2
      obtain ⟨hL0, hL100⟩ := hr L hLmem
      obtain ⟨hU0, hU100⟩ := hr U hUmem
      by_cases hq : L.1 = U.1
      · exact ⟨L.2, by rw [if_pos hq], hL0, hL100⟩
      · rcases hres.2 with hxu | ⟨hUup, hLlast⟩
        · have hLx := hres.1
          have hLU : L.1 < U.1 := lt_of_le_of_ne (le_trans hLx hxu) hq
          have hden : (0 : ℚ) < (U.1 : ℚ) - (L.1 : ℚ) := by
            have := sub_pos.mpr hLU
            exact_mod_cast this
          have ht0 : (0 : ℚ) ≤ ((x : ℚ) - (L.1 : ℚ)) / ((U.1 : ℚ) - (L.1 : ℚ)) := by
            apply div_nonneg _ (le_of_lt hden)
            have := sub_nonneg.mpr hLx
            exact_mod_cast this
          have ht1 : ((x : ℚ) - (L.1 : ℚ)) / ((U.1 : ℚ) - (L.1 : ℚ)) ≤ 1 := by
            rw [div_le_one hden]
            have := sub_le_sub_right hxu L.1
            exact_mod_cast this
          have cL0 : (0 : ℚ) ≤ (L.2 : ℚ) := by exact_mod_cast hL0
          have cL100 : (L.2 : ℚ) ≤ 100 := by exact_mod_cast hL100
          have cU0 : (0 : ℚ) ≤ (U.2 : ℚ) := by exact_mod_cast hU0
          have cU100 : (U.2 : ℚ) ≤ 100 := by exact_mod_cast hU100
          set tq : ℚ := ((x : ℚ) - (L.1 : ℚ)) / ((U.1 : ℚ) - (L.1 : ℚ)) with htq
          have hq0 : (0 : ℚ) ≤ (L.2 : ℚ) + tq * ((U.2 : ℚ) - (L.2 : ℚ)) := by
            nlinarith [mul_nonneg ht0 cU0, mul_nonneg (sub_nonneg.mpr ht1) cL0]
          have hq100 : (L.2 : ℚ) + tq * ((U.2 : ℚ) - (L.2 : ℚ)) ≤ 100 := by
            nlinarith [mul_le_mul_of_nonneg_left cU100 ht0,
              mul_le_mul_of_nonneg_left cL100 (sub_nonneg.mpr ht1)]
          have hb := pyRound_bounds 0 100
            ((L.2 : ℚ) + tq * ((U.2 : ℚ) - (L.2 : ℚ)))
            (by exact_mod_cast hq0) (by exact_mod_cast hq100)
          exact ⟨_, by rw [if_neg hq], hb.1, hb.2⟩
        · exfalso
          apply hq
          rw [hLlast, hUup, hGdef, List.getLastD_cons, List.getLast_eq_getLastD]

/-- C8 witness: the first doctest query lies strictly between two control
points and its result 59 is in [0, 100]. -/
theorem c8_range_witness :
    ∃ r, interpolate_profile [(20, 50), (50, 70), (60, 100)] 33 = some r ∧
      0 ≤ r ∧ r ≤ 100 :=
  c8_range [(20, 50), (50, 70), (60, 100)] 33 (by simp) (by decide) (by decide) (by decide)

/-- C9: interpolate_profile on the empty curve fails (the Python code
raises IndexError at the profile subscript, modelled as none) rather than
returning a sentinel value, and on every non-empty curve it returns a
value and raises no error. -/
theorem c9_empty_curve (curve : List (ℤ × ℤ)) (x : ℤ) :
    (curve = [] → interpolate_profile curve x = none) ∧
    (curve ≠ [] → ∃ r, interpolate_profile curve x = some r) := by
  constructor
  · rintro rfl; rfl
  · intro hne
    cases curve with
    | nil => exact absurd rfl hne
    | cons h t => exact ⟨_, rfl⟩

/-- C9 witness: the empty curve yields none; the singleton doctest curve
yields a value. -/
theorem c9_empty_curve_witness :
    interpolate_profile [] 0 = none ∧
      ∃ r, interpolate_profile [((20 : ℤ), (50 : ℤ))] 20 = some r :=
  ⟨(c9_empty_curve [] 0).1 rfl, (c9_empty_curve [(20, 50)] 20).2 (by simp)⟩

/-! ## Claims about fraction_of_byte -/

/-- C2 counterexample: supplying both ratio and percentage does not fail:
percentage silently overwrites ratio and the call returns
round(20 / 100 * 255) = 51, contradicting the claim that the call fails
whenever both arguments are supplied. -/
theorem c2_fraction_of_byte_ce :
    fraction_of_byte (some (1/2)) (some 20) = Except.ok 51 := by
  norm_num [fraction_of_byte, pyRound]

/-- C2 (amended): fraction_of_byte fails iff the effective ratio is
absent (neither argument supplied) or falls outside [0, 1], where the
effective ratio is percentage / 100 when a percentage is supplied
(silently overriding any ratio also supplied) and the ratio otherwise;
when the effective ratio q lies in [0, 1] it returns round(q * 255), an
integer in [0, 255]. -/
theorem c2_fraction_of_byte_amended (ratio percentage : Option ℚ) :
    ((∃ e, fraction_of_byte ratio percentage = Except.error e) ↔
      (effectiveRatio ratio percentage = none ∨
        ∃ q, effectiveRatio ratio percentage = some q ∧ (q < 0 ∨ 1 < q)))
    ∧ (∀ q, effectiveRatio ratio percentage = some q → 0 ≤ q → q ≤ 1 →
        fraction_of_byte ratio percentage = Except.ok (pyRound (q * 255)) ∧
          0 ≤ pyRound (q * 255) ∧ pyRound (q * 255) ≤ 255) := by
  have hbounds : ∀ q : ℚ, 0 ≤ q → q ≤ 1 →
      0 ≤ pyRound (q * 255) ∧ pyRound (q * 255) ≤ 255 := by
    intro q h0 h1
    have hb := pyRound_bounds 0 255 (q * 255)
      (by push_cast; nlinarith) (by push_cast; nlinarith)
    exact hb
  have main : ∀ s : Option ℚ,
      ((∃ e, checkRatio s = Except.error e) ↔
        (s = none ∨ ∃ q, s = some q ∧ (q < 0 ∨ 1 < q)))
      ∧ (∀ q, s = some q → 0 ≤ q → q ≤ 1 →
          checkRatio s = Except.ok (pyRound (q * 255)) ∧
            0 ≤ pyRound (q * 255) ∧ pyRound (q * 255) ≤ 255) := by
    intro s
    cases s with
    | none =>
      refine ⟨⟨fun _ => Or.inl rfl, fun _ => ⟨_, rfl⟩⟩, ?_⟩
      intro q hq
      exact absurd hq (by simp)
    | some r =>
      by_cases hr : r < 0 ∨ 1 < r
      · simp only [checkRatio, if_pos hr]
        refine ⟨⟨fun _ => Or.inr ⟨r, rfl, hr⟩, fun _ => ⟨_, rfl⟩⟩, ?_⟩
        intro q hq h0 h1
        obtain rfl : r = q := Option.some.inj hq
        rcases hr with hr | hr
        · exact absurd h0 (not_le.mpr hr)
        · exact absurd h1 (not_le.mpr hr)
      · simp only [checkRatio, if_neg hr]
        refine ⟨⟨?_, ?_⟩, ?_⟩
        · rintro ⟨e, he⟩
          exact absurd he (by simp)
        · rintro (h | ⟨q, hq, hcase⟩)
          · exact absurd h (by simp)
          · obtain rfl : r = q := Option.some.inj hq
            exact absurd hcase hr
        · intro q hq h0 h1
          obtain rfl : r = q := Option.some.inj hq
          exact ⟨rfl, hbounds _ h0 h1⟩
  have hfe : fraction_of_byte ratio percentage
      = checkRatio (effectiveRatio ratio percentage) := by
    cases percentage <;> rfl
  rw [hfe]
  exact main (effectiveRatio ratio percentage)

/-- C2 amended witness: the two documented examples, derived through the
amended theorem: ratio 4/5 gives 204 and percentage 20 gives 51. -/
theorem c2_fraction_of_byte_amended_witness :
    fraction_of_byte (some (4/5)) none = Except.ok 204 ∧
      fraction_of_byte none (some 20) = Except.ok 51 := by
  have h1 := (c2_fraction_of_byte_amended (some (4/5)) none).2 (4/5)
    rfl (by norm_num) (by norm_num)
  have h2 := (c2_fraction_of_byte_amended none (some 20)).2 (20/100)
    rfl (by norm_num) (by norm_num)
  refine ⟨?_, ?_⟩
  · rw [h1.1]
    norm_num [pyRound]
  · rw [h2.1]
    norm_num [pyRound]

end Liquidctl
